import Mathlib

/-!
Verification development for the implicit treap of `algorithm-pack`
(`src/include/algorithm_pack/implicit_treap.h`).

The node graph is embedded as an inductive tree.  Each `Node` carries the
cached `tree_size` field exactly as the C++ struct does; all operations read
the cache through `GetTreeSize` just as the source reads `node->tree_size`.
Parent back-pointers are not stored: in the functional embedding a node is
identified by the path from the root, and the bottom-up parent walks of the
source (`GetElementNumber`) become top-down folds over that path.  `FixParent`
is therefore the identity here, and `FixTreeSize` is performed by the smart
constructor `mkNodeFix` at every relink, exactly where the source calls it.
Values are specialised to `Nat` (the C++ container is a template; no claim
depends on the element type).
-/

namespace AlgPack

/-- One element of the treap: children, cached subtree size, priority, value.
Mirrors `ImplicitTreap<T>::Node` (fields `left`, `right`, `tree_size`,
`priority`, `value`; the non-owning `parent` pointer is represented implicitly
by paths from the root). -/
inductive Node where
  | nil : Node
  | node (left : Node) (right : Node) (tree_size : Nat) (priority : Nat) (value : Nat) : Node
deriving DecidableEq

/-- `GetTreeSize`: the cached subtree size, 0 for a null pointer. -/
def GetTreeSize : Node → Nat
  | .nil => 0
  | .node _ _ s _ _ => s

/-- Builds a node from children after a relink and immediately applies
`FixTreeSize` (`tree_size = GetTreeSize(left) + GetTreeSize(right) + 1`);
`FixParent` is a no-op in the path representation. -/
def mkNodeFix (l r : Node) (p v : Nat) : Node :=
  .node l r (GetTreeSize l + GetTreeSize r + 1) p v

/-- `Merge(lhs, rhs)`: the root with the larger priority wins
(`lhs->priority > rhs->priority` keeps `lhs` on top), the loser is merged
into the vacated child slot, then sizes are fixed. -/
def Merge : Node → Node → Node
  | .nil, rhs => rhs
  | .node ll lr ls lp lv, .nil => .node ll lr ls lp lv
  | .node ll lr ls lp lv, .node rl rr rs rp rv =>
    if lp > rp then
      mkNodeFix ll (Merge lr (.node rl rr rs rp rv)) lp lv
    else
      mkNodeFix (Merge (.node ll lr ls lp lv) rl) rr rp rv
termination_by l r => sizeOf l + sizeOf r
decreasing_by
  · simp; omega
  · simp; omega

/-- `Split(el_number, node)`: elements with 1-based number `< el_number` go
left, the rest go right.  The routing key `elements_until_this` is the cached
`GetTreeSize(node->left) + 1`.  The source additionally re-runs
`FixTreeSize`/`FixParent` on the pass-through root returned by the recursive
call; that recomputation reads the same child caches the recursive call just
wrote, so it is the identity and is omitted here. -/
def Split : Nat → Node → Node × Node
  | _, .nil => (.nil, .nil)
  | el_number, .node l r _ p v =>
    let elements_until_this := GetTreeSize l + 1
    if elements_until_this < el_number then
      let res := Split (el_number - elements_until_this) r
      (mkNodeFix l res.1 p v, res.2)
    else
      let res := Split el_number l
      (res.1, mkNodeFix res.2 r p v)

/-- In-order traversal: the sequence the container represents. -/
def InOrder : Node → List Nat
  | .nil => []
  | .node l r _ _ v => InOrder l ++ v :: InOrder r

/-- Actual number of nodes in a subtree (not the cached field). -/
def count : Node → Nat
  | .nil => 0
  | .node l r _ _ _ => count l + count r + 1

/-- Priority of the root node, 0 for the empty tree. -/
def rootPrio : Node → Nat
  | .nil => 0
  | .node _ _ _ p _ => p

/-- Size invariant: every cached `tree_size` equals
`1 + size(left) + size(right)`. -/
def SizeOk : Node → Prop
  | .nil => True
  | .node l r s _ _ => s = GetTreeSize l + GetTreeSize r + 1 ∧ SizeOk l ∧ SizeOk r

instance SizeOk.dec : (t : Node) → Decidable (SizeOk t)
  | .nil => .isTrue trivial
  | .node l r _ _ _ =>
    have := SizeOk.dec l
    have := SizeOk.dec r
    inferInstanceAs (Decidable (_ ∧ _ ∧ _))

/-- Max-heap invariant: every node's priority is ≥ those of its children. -/
def HeapOk : Node → Prop
  | .nil => True
  | .node l r _ p _ => rootPrio l ≤ p ∧ rootPrio r ≤ p ∧ HeapOk l ∧ HeapOk r

instance HeapOk.dec : (t : Node) → Decidable (HeapOk t)
  | .nil => .isTrue trivial
  | .node l r _ _ _ =>
    have := HeapOk.dec l
    have := HeapOk.dec r
    inferInstanceAs (Decidable (_ ∧ _ ∧ _ ∧ _))

/-- Modelled from the spec: the priority source.  The spec (§2) requires only
"a reseedable pseudo-random 64-bit generator producing independent priorities";
the source uses `std::mt19937_64`, which is standard-library code, not part of
this repository.  It is embedded abstractly as a seed plus the number of
values drawn so far, with a fixed mixing function producing each 64-bit draw;
every property proved below is independent of the mixing function. -/
structure Rnd where
  seed : Nat
  idx : Nat
deriving DecidableEq

/-- One 64-bit draw of the priority source. -/
def rndValue (seed idx : Nat) : Nat :=
  (seed * 6364136223846793005 + idx * 1442695040888963407 + 1) % (2 ^ 64)

/-- `rnd_()`: produce the next value and advance the generator state. -/
def rndNext (r : Rnd) : Nat × Rnd :=
  (rndValue r.seed r.idx, ⟨r.seed, r.idx + 1⟩)

/-- The container `ImplicitTreap<T>`: fields `root_`, `rnd_`, `size_`.
`size_` is a `size_t`; it is embedded as `Nat` because no reachable state of
the claims under study makes its 2^64 wraparound observable (the element count
is bounded by the address space, and the one place where `size_t` wraparound
is observable — the unsigned arithmetic of `ShiftNode` — is modelled with an
explicit `% 2^64` below). -/
structure Treap where
  root : Node
  rnd : Rnd
  size_ : Nat
deriving DecidableEq

/-- `Empty()`: true iff `root_` is null. -/
def Empty (t : Treap) : Bool := t.root == .nil

/-- `Size()`: the cached element counter. -/
def Size (t : Treap) : Nat := t.size_

/-- `Insert(value, pos)`: increments `size_`, draws a priority for the new
node (`tree_size` initialised to 1), splits at `min(size_, pos) + 1` (with
the already-incremented `size_`), and merges the pieces back. -/
def Insert (t : Treap) (value : Nat) (pos : Nat) : Treap :=
  let size1 := t.size_ + 1
  let draw := rndNext t.rnd
  let new_node : Node := .node .nil .nil 1 draw.1 value
  let sp := Split (min size1 pos + 1) t.root
  { root := Merge (Merge sp.1 new_node) sp.2, rnd := draw.2, size_ := size1 }

/-- `Erase(pos)`: the only checked precondition in the source is
`assert(root_)` (modelled as `none`); the position itself is never validated.
Two splits isolate the node with element number `pos + 1`, the isolated
node is deleted, the rest is re-merged, and `size_` is decremented. -/
def Erase (t : Treap) (pos : Nat) : Option Treap :=
  if t.root = .nil then none
  else
    let first_split := Split (pos + 1) t.root
    let second_split := Split 2 first_split.2
    some { root := Merge first_split.1 second_split.2, rnd := t.rnd,
           size_ := t.size_ - 1 }

/-- `Extract(start_pos, end_pos)`: asserts `end_pos >= start_pos` and
`end_pos <= size_` (modelled as `none`), unconditionally draws one value from
the receiver's priority source to seed the result container, then either
transfers the whole root, isolates the middle segment with two splits, or
(empty range) touches no node.  Returns `(receiver after, extracted)`. -/
def Extract (t : Treap) (start_pos end_pos : Nat) : Option (Treap × Treap) :=
  if end_pos < start_pos ∨ t.size_ < end_pos then none
  else
    let draw := rndNext t.rnd
    if start_pos = 0 ∧ end_pos = t.size_ then
      some ({ root := .nil, rnd := draw.2, size_ := 0 },
            { root := t.root, rnd := ⟨draw.1, 0⟩, size_ := t.size_ })
    else if start_pos < end_pos then
      let start_split := Split (start_pos + 1) t.root
      let extracted_num := end_pos - start_pos
      let end_split := Split (extracted_num + 1) start_split.2
      some ({ root := Merge start_split.1 end_split.2, rnd := draw.2,
              size_ := t.size_ - extracted_num },
            { root := end_split.1, rnd := ⟨draw.1, 0⟩, size_ := extracted_num })
    else
      some ({ root := t.root, rnd := draw.2, size_ := t.size_ },
            { root := .nil, rnd := ⟨draw.1, 0⟩, size_ := 0 })

/-- `Concatenate(other)`: one merge; `other` is left with a null root and
size 0 (`std::exchange`).  Returns `(self after, other after)`. -/
def Concatenate (t other : Treap) : Treap × Treap :=
  ({ root := Merge t.root other.root, rnd := t.rnd,
     size_ := t.size_ + other.size_ },
   { root := .nil, rnd := other.rnd, size_ := 0 })

/-- `Rotate(count)`, the single signed-count variant present in the header;
`count` is a 32-bit `int`.  In the positive branch `count % size_` is
evaluated in `size_t` arithmetic after a value-preserving conversion.  In the
negative branch the source first computes `-count` as an `int`
(`count = -count % size_;`), which overflows at `count = INT_MIN = -2^31` —
undefined behavior, modelled as `none`; for every other negative count the
negation is exact and the converted value feeds the modulo.  On an empty
container any `count ≠ 0` that passes the negation reaches a modulo by
zero — also undefined behavior, modelled as `none`. -/
def Rotate (t : Treap) (cnt : Int) : Option Treap :=
  if cnt = 0 then some t
  else if 0 < cnt then
    if t.size_ = 0 then none
    else
      let c := cnt.toNat % t.size_
      if c = 0 then some t
      else
        let sp := Split (t.size_ - c + 1) t.root
        some { root := Merge sp.2 sp.1, rnd := t.rnd, size_ := t.size_ }
  else
    if cnt = -(2 ^ 31) then none
    else if t.size_ = 0 then none
    else
      let c := (-cnt).toNat % t.size_
      if c = 0 then some t
      else
        let sp := Split (c + 1) t.root
        some { root := Merge sp.2 sp.1, rnd := t.rnd, size_ := t.size_ }

/-- Move construction: the destination takes root, generator state and size;
the source's `root_` is nulled but its `size_` is NOT reset (the header's own
doc declares the moved-from state "not valid").
Returns `(destination, source after)`. -/
def moveConstruct (other : Treap) : Treap × Treap :=
  ({ root := other.root, rnd := other.rnd, size_ := other.size_ },
   { root := .nil, rnd := other.rnd, size_ := other.size_ })

/-- Move assignment for distinct objects: move-construct a temporary from
`other`, swap it with `*this`, destroy the temporary (which now owns the old
data of `*this`).  Returns `(this after, other after)`. -/
def moveAssign (self other : Treap) : Treap × Treap :=
  let tmp := moveConstruct other
  let afterSwap := (tmp.1, self)
  (afterSwap.1, tmp.2)

/-- `Swap(other)`: exchanges all three fields. -/
def SwapOp (t other : Treap) : Treap × Treap := (other, t)

/-- `SetSeed(seed)`: reseeds the generator without touching nodes. -/
def SetSeed (t : Treap) (seed : Nat) : Treap :=
  { root := t.root, rnd := ⟨seed, 0⟩, size_ := t.size_ }

/-- Container invariants: exact cached sizes, max-heap on priorities, and the
`size_` field equal to the root's subtree size (0 for a null root). -/
def Inv (t : Treap) : Prop :=
  SizeOk t.root ∧ HeapOk t.root ∧ t.size_ = GetTreeSize t.root

instance (t : Treap) : Decidable (Inv t) :=
  inferInstanceAs (Decidable (_ ∧ _ ∧ _))

/-- One entry of the right spine during bulk construction: a node's fully
built left subtree plus its priority and value.  The C++ bulk constructor
keeps a pointer to the rightmost node (`last_included`) and climbs parent
links along the right spine; in the functional embedding that spine is the
explicit list of entries, rightmost node first. -/
structure SpineEntry where
  left : Node
  prio : Nat
  val : Nat
deriving DecidableEq

/-- Reassembles a spine (rightmost first) into a tree: each entry becomes a
node whose right child is the chain built so far, with `FixTreeSize` applied
exactly as the constructor's fix-up walk recomputes the sizes on the spine. -/
def rebuild (acc : Node) : List SpineEntry → Node
  | [] => acc
  | e :: rest => rebuild (mkNodeFix e.left acc e.prio e.val) rest

/-- The climbing loop of the bulk constructor: walks up while
`last_included->priority < new_node->priority`, accumulating the passed
nodes into the chain `acc` which becomes the new node's left subtree
(`new_node->left = last_included->right`, or the whole old root when the walk
runs past the root). -/
def spinePush (p v : Nat) : List SpineEntry → Node → List SpineEntry
  | [], acc => [⟨acc, p, v⟩]
  | e :: rest, acc =>
    if e.prio < p then spinePush p v rest (mkNodeFix e.left acc e.prio e.val)
    else ⟨acc, p, v⟩ :: e :: rest

/-- Bulk-construction loop: inserts each remaining element at the rightmost
position with a freshly drawn priority. -/
def buildLoop : List Nat → Rnd → List SpineEntry → List SpineEntry × Rnd
  | [], r, sp => (sp, r)
  | v :: rest, r, sp =>
    let draw := rndNext r
    buildLoop rest draw.2 (spinePush draw.1 v sp .nil)

/-- The bulk constructor `ImplicitTreap(const std::vector<T>&, uint64_t)`:
an empty input gives an empty treap; otherwise the first element becomes the
initial root and each later element is spliced in on the right spine.
`size_` is set to the input length up front. -/
def fromVector (input : List Nat) (seed : Nat) : Treap :=
  match input with
  | [] => ⟨.nil, ⟨seed, 0⟩, 0⟩
  | v :: rest =>
    let r0 : Rnd := ⟨seed, 0⟩
    let draw := rndNext r0
    let bl := buildLoop rest draw.2 [⟨.nil, draw.1, v⟩]
    ⟨rebuild .nil bl.1, bl.2, input.length⟩

/-- Well-formedness of one spine entry: its left subtree satisfies both tree
invariants and is heap-compatible with the entry's priority. -/
def EntryOk (e : SpineEntry) : Prop :=
  SizeOk e.left ∧ HeapOk e.left ∧ rootPrio e.left ≤ e.prio

/-- Well-formedness of a spine: every entry is well formed and priorities
are nondecreasing from the rightmost node up to the root. -/
def GoodSpine (sp : List SpineEntry) : Prop :=
  (∀ e ∈ sp, EntryOk e) ∧ List.Chain' (fun a b => a.prio ≤ b.prio) sp

/-- The chain accumulated so far is heap-compatible with the next spine
entry (vacuous for an empty spine). -/
def LBound (acc : Node) : List SpineEntry → Prop
  | [] => True
  | e :: _ => rootPrio acc ≤ e.prio

/-- Total number of tree nodes a spine represents. -/
def spineCount : List SpineEntry → Nat
  | [] => 0
  | e :: rest => count e.left + 1 + spineCount rest

/-- A reachable node is identified by the list of turns from the root
(`false` = left child, `true` = right child); this stands in for the raw node
pointer together with the parent back-links of the source. -/
def isValidPath : Node → List Bool → Bool
  | .nil, _ => false
  | .node _ _ _ _ _, [] => true
  | .node l _ _ _ _, false :: p => isValidPath l p
  | .node _ r _ _ _, true :: p => isValidPath r p

/-- `GetElementNumber(node)`: the source starts from
`GetTreeSize(node->left) + 1` and walks parent links upward, adding
`GetTreeSize(parent->left) + 1` whenever it ascends through a right-child
edge.  Walking down the path from the root meets the same edges in reverse
order, so this fold adds exactly the same summands. -/
def GetElementNumber : Node → List Bool → Nat
  | .nil, _ => 0
  | .node l _ _ _ _, [] => GetTreeSize l + 1
  | .node l _ _ _ _, false :: p => GetElementNumber l p
  | .node l r _ _ _, true :: p => GetTreeSize l + 1 + GetElementNumber r p

/-- `GetElement(root, el_number)`: descends by the cached left sizes.  The
asserted preconditions (`el_number > 0` and a non-null root at every step)
are modelled as `none`. -/
def GetElement : Node → Nat → Option Node
  | .nil, _ => none
  | .node l r s p v, k =>
    if k = 0 then none
    else
      let curr := GetTreeSize l + 1
      if k < curr then GetElement l k
      else if k > curr then GetElement r (k - curr)
      else some (.node l r s p v)

/-- `ShiftNode(curr_node, root, shift)`: the node's element number and the
shift are added in `size_t` arithmetic (the `int` shift is converted to
unsigned, i.e. the sum is taken mod 2^64), the result is range-checked
against the cached root size, and any out-of-range sum yields a null node —
no assertion is involved on this path. -/
def ShiftNode (currPath : List Bool) (root : Node) (shift : Int) : Option Node :=
  let curr : Nat := GetElementNumber root currPath
  let s : Nat := (((curr : Int) + shift) % (2 ^ 64 : Int)).toNat
  if s < 1 ∨ s > GetTreeSize root then none
  else GetElement root s

/-- `operator+(iterator, shift)`: a non-end iterator (`some path`, a live
node reference) shifts via `ShiftNode`; the past-the-end iterator (`none`,
null node pointer) instead asks `GetElement(root, size_ + shift + 1)`.  The
result is the shifted iterator's node reference; `none` is the null
reference, i.e. an iterator equal to `End()`. -/
def iterPlus (t : Treap) (it : Option (List Bool)) (shift : Int) : Option Node :=
  match it with
  | none =>
    GetElement t.root ((((t.size_ : Int) + shift + 1) % (2 ^ 64 : Int)).toNat)
  | some path => ShiftNode path t.root shift

/-- Modelled from the spec: the three-argument sub-range rotation
`Rotate(begin, new_begin, end)`.  The repository's tests call this overload,
but its definition is missing from `src/` (the header there only has the
single-count `Rotate(int)`).  Spec §4.7: split into before / rotating range /
after, split the range again at `new_begin` into (A, B), and reassemble as
before + B + A + after, all through Split/Merge; no node is reallocated and
the element count is unchanged. -/
def RotateRange (t : Treap) (b nb e : Nat) : Treap :=
  let first := Split (b + 1) t.root
  let second := Split (e - b + 1) first.2
  let range := Split (nb - b + 1) second.1
  ⟨Merge first.1 (Merge range.2 (Merge range.1 second.2)), t.rnd, t.size_⟩

/-- Concrete 3-element example container holding `[10, 20, 30]`. -/
def W3 : Treap :=
  ⟨.node (.node .nil .nil 1 1 10) (.node .nil .nil 1 2 30) 3 5 20, ⟨0, 0⟩, 3⟩

/-- Concrete 1-element example container holding `[10]`. -/
def W1 : Treap := ⟨.node .nil .nil 1 1 10, ⟨4, 0⟩, 1⟩

/-- Concrete 2-element example container holding `[10, 20]`. -/
def W2 : Treap := ⟨.node .nil (.node .nil .nil 1 1 20) 2 6 10, ⟨7, 0⟩, 2⟩

/-- Concrete empty container. -/
def W0 : Treap := ⟨.nil, ⟨0, 0⟩, 0⟩

/-- Concrete 9-element example container holding `[1, 2, ..., 9]`. -/
def W9 : Treap :=
  ⟨.node
    (.node (.node .nil .nil 1 10 1)
      (.node (.node .nil .nil 1 20 3) .nil 2 70 4) 4 80 2)
    (.node (.node .nil .nil 1 30 6)
      (.node (.node .nil .nil 1 25 8) .nil 2 60 9) 4 85 7) 9 90 5,
   ⟨0, 0⟩, 9⟩

@[simp] lemma getTreeSize_nil : GetTreeSize .nil = 0 := rfl

@[simp] lemma getTreeSize_node (l r : Node) (s p v : Nat) :
    GetTreeSize (.node l r s p v) = s := rfl

@[simp] lemma rootPrio_nil : rootPrio .nil = 0 := rfl

@[simp] lemma rootPrio_node (l r : Node) (s p v : Nat) :
    rootPrio (.node l r s p v) = p := rfl

@[simp] lemma inorder_node (l r : Node) (s p v : Nat) :
    InOrder (.node l r s p v) = InOrder l ++ v :: InOrder r := rfl

@[simp] lemma count_node (l r : Node) (s p v : Nat) :
    count (.node l r s p v) = count l + count r + 1 := rfl

lemma sizeOk_node (l r : Node) (s p v : Nat) :
    SizeOk (.node l r s p v) ↔
      s = GetTreeSize l + GetTreeSize r + 1 ∧ SizeOk l ∧ SizeOk r := Iff.rfl

lemma heapOk_node (l r : Node) (s p v : Nat) :
    HeapOk (.node l r s p v) ↔
      rootPrio l ≤ p ∧ rootPrio r ≤ p ∧ HeapOk l ∧ HeapOk r := Iff.rfl

@[simp] lemma getTreeSize_mkNodeFix (l r : Node) (p v : Nat) :
    GetTreeSize (mkNodeFix l r p v) = GetTreeSize l + GetTreeSize r + 1 := rfl

@[simp] lemma inorder_nil : InOrder .nil = [] := rfl

@[simp] lemma inorder_mkNodeFix (l r : Node) (p v : Nat) :
    InOrder (mkNodeFix l r p v) = InOrder l ++ v :: InOrder r := rfl

@[simp] lemma count_nil : count .nil = 0 := rfl

@[simp] lemma count_mkNodeFix (l r : Node) (p v : Nat) :
    count (mkNodeFix l r p v) = count l + count r + 1 := rfl

@[simp] lemma sizeOk_nil : SizeOk .nil := trivial

@[simp] lemma heapOk_nil : HeapOk .nil := trivial

lemma sizeOk_mkNodeFix {l r : Node} (hl : SizeOk l) (hr : SizeOk r) (p v : Nat) :
    SizeOk (mkNodeFix l r p v) := ⟨rfl, hl, hr⟩

lemma getTreeSize_eq_count {t : Node} (h : SizeOk t) : GetTreeSize t = count t := by
  induction t with
  | nil => rfl
  | node l r s p v ihl ihr =>
    obtain ⟨hs, hl, hr⟩ := h
    simp [hs, ihl hl, ihr hr]

lemma length_inorder (t : Node) : (InOrder t).length = count t := by
  induction t with
  | nil => rfl
  | node l r s p v ihl ihr => simp [InOrder, count, ihl, ihr]; omega

/-- In-order traversal of a merge is the concatenation of the traversals,
with no precondition on sizes or priorities. -/
lemma inorder_merge (a b : Node) : InOrder (Merge a b) = InOrder a ++ InOrder b := by
  induction a, b using Merge.induct with
  | case1 rhs => simp [Merge]
  | case2 ll lr ls lp lv => simp [Merge, InOrder]
  | case3 ll lr ls lp lv rl rr rs rp rv h ih =>
    simp [Merge, h, ih, InOrder, List.append_assoc]
  | case4 ll lr ls lp lv rl rr rs rp rv h ih =>
    simp [Merge, h, ih, InOrder, List.append_assoc]

lemma count_merge (a b : Node) : count (Merge a b) = count a + count b := by
  have h := congrArg List.length (inorder_merge a b)
  simpa [length_inorder] using h

lemma sizeOk_merge : ∀ {a b : Node}, SizeOk a → SizeOk b → SizeOk (Merge a b) := by
  intro a b
  induction a, b using Merge.induct with
  | case1 rhs => intro _ hb; simpa [Merge] using hb
  | case2 ll lr ls lp lv => intro ha _; simpa [Merge] using ha
  | case3 ll lr ls lp lv rl rr rs rp rv h ih =>
    intro ha hb
    obtain ⟨-, hll, hlr⟩ := ha
    simp only [Merge, if_pos h]
    exact sizeOk_mkNodeFix hll (ih hlr hb) lp lv
  | case4 ll lr ls lp lv rl rr rs rp rv h ih =>
    intro ha hb
    obtain ⟨-, hrl, hrr⟩ := hb
    simp only [Merge, if_neg h]
    exact sizeOk_mkNodeFix (ih ha hrl) hrr rp rv

lemma rootPrio_merge_le (a b : Node) :
    rootPrio (Merge a b) ≤ max (rootPrio a) (rootPrio b) := by
  induction a, b using Merge.induct with
  | case1 rhs => simp [Merge]
  | case2 ll lr ls lp lv => simp [Merge]
  | case3 ll lr ls lp lv rl rr rs rp rv h ih =>
    simp [Merge, h, mkNodeFix, rootPrio]
  | case4 ll lr ls lp lv rl rr rs rp rv h ih =>
    simp [Merge, h, mkNodeFix, rootPrio]

lemma heapOk_merge : ∀ {a b : Node}, HeapOk a → HeapOk b → HeapOk (Merge a b) := by
  intro a b
  induction a, b using Merge.induct with
  | case1 rhs => intro _ hb; simpa [Merge] using hb
  | case2 ll lr ls lp lv => intro ha _; simpa [Merge] using ha
  | case3 ll lr ls lp lv rl rr rs rp rv h ih =>
    intro ha hb
    obtain ⟨h1, h2, h3, h4⟩ := ha
    simp only [Merge, if_pos h, mkNodeFix, heapOk_node]
    refine ⟨h1, ?_, h3, ih h4 hb⟩
    have hm := rootPrio_merge_le lr (.node rl rr rs rp rv)
    simp only [rootPrio_node] at hm
    omega
  | case4 ll lr ls lp lv rl rr rs rp rv h ih =>
    intro ha hb
    obtain ⟨h1, h2, h3, h4⟩ := hb
    simp only [Merge, if_neg h, mkNodeFix, heapOk_node]
    refine ⟨?_, h2, ih ha h3, h4⟩
    have hm := rootPrio_merge_le (Node.node ll lr ls lp lv) rl
    simp only [rootPrio_node, not_lt] at hm h
    omega

/-- The two halves of a split concatenate back to the original sequence,
with no precondition. -/
lemma split_inorder_append (k : Nat) (t : Node) :
    InOrder (Split k t).1 ++ InOrder (Split k t).2 = InOrder t := by
  induction t generalizing k with
  | nil => simp [Split]
  | node l r s p v ihl ihr =>
    simp only [Split]
    split
    · simp [InOrder, ← ihr (k - (GetTreeSize l + 1)), List.append_assoc]
    · simp [InOrder, ← ihl k, List.append_assoc]

lemma count_split (k : Nat) (t : Node) :
    count (Split k t).1 + count (Split k t).2 = count t := by
  have h := congrArg List.length (split_inorder_append k t)
  simpa [length_inorder] using h

lemma sizeOk_split (k : Nat) (t : Node) :
    SizeOk t → SizeOk (Split k t).1 ∧ SizeOk (Split k t).2 := by
  induction t generalizing k with
  | nil => intro _; simp [Split]
  | node l r s p v ihl ihr =>
    intro h
    obtain ⟨hs, hl, hr⟩ := h
    simp only [Split]
    split
    · exact ⟨sizeOk_mkNodeFix hl ((ihr _) hr).1 p v, ((ihr _) hr).2⟩
    · exact ⟨((ihl k) hl).1, sizeOk_mkNodeFix ((ihl k) hl).2 hr p v⟩

lemma heapOk_split (k : Nat) (t : Node) :
    HeapOk t → HeapOk (Split k t).1 ∧ HeapOk (Split k t).2 ∧
      rootPrio (Split k t).1 ≤ rootPrio t ∧ rootPrio (Split k t).2 ≤ rootPrio t := by
  induction t generalizing k with
  | nil => intro _; simp [Split]
  | node l r s p v ihl ihr =>
    intro h
    obtain ⟨h1, h2, h3, h4⟩ := h
    simp only [Split]
    split
    · obtain ⟨a1, a2, a3, a4⟩ := (ihr (k - (GetTreeSize l + 1))) h4
      exact ⟨⟨h1, le_trans a3 h2, h3, a1⟩, a2, by simp [mkNodeFix, rootPrio],
        le_trans a4 h2⟩
    · obtain ⟨a1, a2, a3, a4⟩ := (ihl k) h3
      exact ⟨a1, ⟨le_trans a4 h1, h2, a2, h4⟩, le_trans a3 h1,
        by simp [mkNodeFix, rootPrio]⟩

/-- With correct cached sizes, `Split k` is precisely `take (k-1)` / `drop (k-1)`
on the in-order sequence. -/
lemma split_take_drop (k : Nat) (t : Node) :
    SizeOk t → InOrder (Split k t).1 = (InOrder t).take (k - 1) ∧
      InOrder (Split k t).2 = (InOrder t).drop (k - 1) := by
  induction t generalizing k with
  | nil => intro _; simp [Split]
  | node l r s p v ihl ihr =>
    intro h
    obtain ⟨hs, hl, hr⟩ := h
    have hlen : (InOrder l).length = GetTreeSize l := by
      rw [length_inorder, getTreeSize_eq_count hl]
    simp only [Split]
    split
    · rename_i hlt
      obtain ⟨e1, e2⟩ := (ihr (k - (GetTreeSize l + 1))) hr
      have hidx : k - 1 - (InOrder l).length = (k - (GetTreeSize l + 1) - 1) + 1 := by
        omega
      have hT : List.take (k - 1) (InOrder l ++ v :: InOrder r) =
          InOrder l ++ v :: List.take (k - (GetTreeSize l + 1) - 1) (InOrder r) := by
        rw [List.take_append_eq_append_take, List.take_of_length_le (by omega),
          hidx, List.take_succ_cons]
      have hD : List.drop (k - 1) (InOrder l ++ v :: InOrder r) =
          List.drop (k - (GetTreeSize l + 1) - 1) (InOrder r) := by
        rw [List.drop_append_eq_append_drop, List.drop_of_length_le (by omega),
          hidx, List.drop_succ_cons, List.nil_append]
      constructor
      · simp only [inorder_mkNodeFix, inorder_node, e1, hT]
      · simp only [inorder_node, e2, hD]
    · rename_i hge
      obtain ⟨e1, e2⟩ := (ihl k) hl
      have hz : k - 1 - (InOrder l).length = 0 := by omega
      have hT : List.take (k - 1) (InOrder l ++ v :: InOrder r) =
          List.take (k - 1) (InOrder l) := by
        rw [List.take_append_eq_append_take, hz, List.take_zero, List.append_nil]
      have hD : List.drop (k - 1) (InOrder l ++ v :: InOrder r) =
          List.drop (k - 1) (InOrder l) ++ v :: InOrder r := by
        rw [List.drop_append_eq_append_drop, hz, List.drop_zero]
      constructor
      · simp only [inorder_node, e1, hT]
      · simp only [inorder_mkNodeFix, inorder_node, e2, hD]

lemma count_eq_zero {t : Node} : count t = 0 ↔ t = .nil := by
  cases t <;> simp

lemma inorder_eq_nil {t : Node} : InOrder t = [] ↔ t = .nil := by
  cases t <;> simp

lemma merge_nil_right (x : Node) : Merge x .nil = x := by
  cases x <;> simp [Merge]

lemma inv_length {t : Treap} (h : Inv t) : (InOrder t.root).length = t.size_ := by
  rw [length_inorder, ← getTreeSize_eq_count h.1, h.2.2]

lemma inv_root_nil {t : Treap} (h : Inv t) (h0 : t.size_ = 0) : t.root = .nil := by
  refine count_eq_zero.mp ?_
  rw [← getTreeSize_eq_count h.1, ← h.2.2, h0]

/-- C2: for every tree root and every rank, the two trees returned by `Split`
have element counts summing to the input's count, and re-`Merge`-ing the two
halves reproduces exactly the original in-order sequence. -/
theorem c2_split_merge_inverse (t : Node) (k : Nat) :
    count (Split k t).1 + count (Split k t).2 = count t ∧
      InOrder (Merge (Split k t).1 (Split k t).2) = InOrder t :=
  ⟨count_split k t, by rw [inorder_merge, split_inorder_append]⟩

/-- C6 counterexample: `Rotate(1)` on an empty container reaches
`count % size_` with `size_ == 0` — a modulo by zero (undefined behavior,
embedded as `none`) — so the call is not a defined no-op for every count. -/
theorem c6_counterexample : Rotate W0 1 = none := by decide

/-- C6 (amended): on an empty container `Rotate(0)` is a defined no-op, but
`Rotate(count)` with `count ≠ 0` divides by zero (`count % size_` with
`size_ == 0`) — a contract violation, not a defined no-op. -/
theorem c6_rotate_empty :
    (∀ t : Treap, t.size_ = 0 → Rotate t 0 = some t) ∧
    (∀ (t : Treap) (cnt : Int), t.size_ = 0 → cnt ≠ 0 → Rotate t cnt = none) := by
  constructor
  · intro t _
    simp [Rotate]
  · intro t cnt h hc
    simp only [Rotate, if_neg hc]
    by_cases hp : 0 < cnt
    · rw [if_pos hp, if_pos h]
    · rw [if_neg hp]
      by_cases hm : cnt = -(2 ^ 31)
      · rw [if_pos hm]
      · rw [if_neg hm, if_pos h]

theorem c6_witness :
    (W0.size_ = 0 ∧ Rotate W0 0 = some W0) ∧
      (W0.size_ = 0 ∧ (2 : Int) ≠ 0 ∧ Rotate W0 2 = none) :=
  ⟨⟨rfl, c6_rotate_empty.1 W0 rfl⟩,
   ⟨rfl, by decide, c6_rotate_empty.2 W0 2 rfl (by decide)⟩⟩

/-- C7 counterexample: after move-construction from a one-element container
the source reports `Empty() == true` but `Size() == 1`, not 0 — the move
constructor nulls `root_` without resetting `size_`. -/
theorem c7_counterexample :
    Empty (moveConstruct W1).2 = true ∧ Size (moveConstruct W1).2 ≠ 0 := by
  decide

/-- C7 (amended): move-construction and move-assignment hand the source's
root, priority-source state and size to the destination, and the moved-from
container's `Empty()` returns true; but its `Size()` returns the former size
(the `size_` field is not reset), which is 0 only if the source was empty. -/
theorem c7_move_semantics (self other : Treap) :
    (moveConstruct other).1 = ⟨other.root, other.rnd, other.size_⟩ ∧
    Empty (moveConstruct other).2 = true ∧
    Size (moveConstruct other).2 = other.size_ ∧
    (moveAssign self other).1 = ⟨other.root, other.rnd, other.size_⟩ ∧
    Empty (moveAssign self other).2 = true ∧
    Size (moveAssign self other).2 = other.size_ :=
  ⟨rfl, rfl, rfl, rfl, rfl, rfl⟩

/-- C8 counterexample: the degenerate `Extract(1, 1)` on a one-element
container advances the receiver's priority source (the source draws `rnd_()`
to seed the returned container before checking the range), so the receiver's
priority-source state is not the same as before the call. -/
theorem c8_counterexample :
    (Extract W1 1 1).map (fun pr => pr.1.rnd) ≠ some W1.rnd := by
  decide

/-- C8 (amended): `Extract(s, s)` returns an empty container and leaves the
receiver's element tree and size unchanged, but the receiver's priority
source advances by exactly one draw (used to seed the returned container). -/
theorem c8_extract_empty_range (t : Treap) (s : Nat) (hinv : Inv t)
    (hs : s ≤ t.size_) :
    ∃ pr, Extract t s s = some pr ∧ pr.1.root = t.root ∧
      pr.1.size_ = t.size_ ∧ pr.1.rnd = (rndNext t.rnd).2 ∧
      pr.2.root = .nil ∧ pr.2.size_ = 0 := by
  simp only [Extract]
  rw [if_neg (by omega : ¬(s < s ∨ t.size_ < s))]
  by_cases h1 : s = 0 ∧ s = t.size_
  · rw [if_pos h1]
    have hroot : t.root = .nil := inv_root_nil hinv (by omega)
    refine ⟨_, rfl, hroot.symm, ?_, rfl, hroot, ?_⟩
    · show (0 : Nat) = t.size_
      omega
    · show t.size_ = 0
      omega
  · rw [if_neg h1, if_neg (lt_irrefl s)]
    exact ⟨_, rfl, rfl, rfl, rfl, rfl, rfl⟩

theorem c8_witness :
    Inv W3 ∧ 1 ≤ W3.size_ ∧
      (∃ pr, Extract W3 1 1 = some pr ∧ pr.1.root = W3.root ∧
        pr.1.size_ = W3.size_ ∧ pr.1.rnd = (rndNext W3.rnd).2 ∧
        pr.2.root = .nil ∧ pr.2.size_ = 0) :=
  ⟨by decide, by decide, c8_extract_empty_range W3 1 (by decide) (by decide)⟩

/-- C9 counterexample: `Erase(5)` on a non-empty container of size 2
completes normally — no assertion/fatal check fires for an out-of-range
position on a non-empty container (the source only asserts `root_`). -/
theorem c9_counterexample : (Erase W2 5).isSome = true := by decide

/-- C9 (amended): only the empty-container case is rejected by an assertion
(`assert(root_)`); an out-of-range position on a non-empty container is not
checked: `Erase` completes normally, removes no element, and decrements
`size_`, silently breaking the size invariant. -/
theorem c9_erase_contract :
    (∀ (t : Treap) (pos : Nat), t.root = .nil → Erase t pos = none) ∧
    (∀ (t : Treap) (pos : Nat), Inv t → 0 < t.size_ → t.size_ ≤ pos →
      ∃ t2, Erase t pos = some t2 ∧ InOrder t2.root = InOrder t.root ∧
        t2.size_ = t.size_ - 1 ∧ t2.size_ ≠ count t2.root) := by
  constructor
  · intro t pos h
    simp [Erase, h]
  · intro t pos hinv hpos hle
    have hlen : (InOrder t.root).length = t.size_ := inv_length hinv
    have hroot : ¬ t.root = .nil := by
      intro h
      rw [← inorder_eq_nil, ← List.length_eq_zero] at h
      omega
    simp only [Erase]
    rw [if_neg hroot]
    have e1 := ((split_take_drop (pos + 1) t.root) hinv.1).1
    have e2 := ((split_take_drop (pos + 1) t.root) hinv.1).2
    simp only [Nat.add_sub_cancel] at e1 e2
    have hb : (Split (pos + 1) t.root).2 = .nil := by
      rw [← inorder_eq_nil, e2]
      exact List.drop_of_length_le (by omega)
    have hEq : InOrder (Merge (Split (pos + 1) t.root).1
        (Split 2 (Split (pos + 1) t.root).2).2) = InOrder t.root := by
      rw [hb]
      show InOrder (Merge (Split (pos + 1) t.root).1 Node.nil) = _
      rw [merge_nil_right, e1]
      exact List.take_of_length_le (by omega)
    refine ⟨_, rfl, hEq, rfl, ?_⟩
    show t.size_ - 1 ≠ _
    rw [← length_inorder, hEq, hlen]
    omega

theorem c9_witness :
    (W0.root = .nil ∧ Erase W0 3 = none) ∧
      (Inv W2 ∧ 0 < W2.size_ ∧ W2.size_ ≤ 5 ∧
        (∃ t2, Erase W2 5 = some t2 ∧ InOrder t2.root = InOrder W2.root ∧
          t2.size_ = W2.size_ - 1 ∧ t2.size_ ≠ count t2.root)) :=
  ⟨⟨rfl, c9_erase_contract.1 W0 3 rfl⟩,
   ⟨by decide, by decide, by decide,
    c9_erase_contract.2 W2 5 (by decide) (by decide) (by decide)⟩⟩

/-- C5 counterexample: the source's negative branch negates `count` as a
32-bit `int` (`count = -count % size_;`) before any conversion, so at
`count = INT_MIN = -2^31` the negation overflows — undefined behavior,
modelled as `none` — rather than the claimed defined left rotation by
`(-count) mod n`; the claim's quantification over every signed count fails
at this input. -/
theorem c5_counterexample : Rotate W3 (-(2 ^ 31)) = none := by decide

/-- C5 (amended): on a non-empty container, for every signed count other
than `INT_MIN = -2^31`, `Rotate(count)` with `count > 0` produces the right
rotation by `count mod n` positions (the last `count mod n` elements move to
the front), with `count < 0` the left rotation by `(-count) mod n`
positions, and with `count = 0` or a multiple of `n` the sequence is
unchanged (the rotation formulas reduce to the identity when the normalized
count is 0).  At `count = INT_MIN` the source's `int` negation overflows
(undefined behavior), so that input is excluded. -/
theorem c5_rotate_signed (t : Treap) (cnt : Int) (hinv : Inv t)
    (hpos : 0 < t.size_) (hmin : -(2 ^ 31) < cnt) :
    ∃ t2, Rotate t cnt = some t2 ∧ t2.size_ = t.size_ ∧
      InOrder t2.root =
        (if 0 < cnt then
            (InOrder t.root).drop (t.size_ - cnt.toNat % t.size_) ++
              (InOrder t.root).take (t.size_ - cnt.toNat % t.size_)
          else if cnt < 0 then
            (InOrder t.root).drop ((-cnt).toNat % t.size_) ++
              (InOrder t.root).take ((-cnt).toNat % t.size_)
          else InOrder t.root) := by
  have hlen := inv_length hinv
  rcases lt_trichotomy cnt 0 with hneg | h0 | hp
  · have hne : ¬ cnt = 0 := by omega
    have hnp : ¬ 0 < cnt := by omega
    simp only [Rotate, if_neg hne, if_neg hnp,
      if_neg (by omega : ¬ cnt = -(2 ^ 31)),
      if_neg (by omega : ¬ t.size_ = 0)]
    by_cases hc : (-cnt).toNat % t.size_ = 0
    · rw [if_pos hc]
      refine ⟨t, rfl, rfl, ?_⟩
      rw [if_pos hneg, hc]
      simp
    · rw [if_neg hc]
      have hsp := (split_take_drop ((-cnt).toNat % t.size_ + 1) t.root) hinv.1
      simp only [Nat.add_sub_cancel] at hsp
      refine ⟨_, rfl, rfl, ?_⟩
      rw [inorder_merge, hsp.1, hsp.2, if_pos hneg]
  · subst h0
    refine ⟨t, by simp [Rotate], rfl, by norm_num⟩
  · have hne : ¬ cnt = 0 := by omega
    simp only [Rotate, if_neg hne, if_pos hp,
      if_neg (by omega : ¬ t.size_ = 0)]
    by_cases hc : cnt.toNat % t.size_ = 0
    · rw [if_pos hc]
      refine ⟨t, rfl, rfl, ?_⟩
      rw [hc, Nat.sub_zero,
        List.drop_of_length_le (le_of_eq hlen),
        List.take_of_length_le (le_of_eq hlen)]
      simp
    · rw [if_neg hc]
      have hsp :=
        (split_take_drop (t.size_ - cnt.toNat % t.size_ + 1) t.root) hinv.1
      simp only [Nat.add_sub_cancel] at hsp
      exact ⟨_, rfl, rfl, by rw [inorder_merge, hsp.1, hsp.2]⟩

theorem c5_witness :
    Inv W3 ∧ 0 < W3.size_ ∧ -(2 ^ 31) < (1 : Int) ∧
      ∃ t2, Rotate W3 1 = some t2 ∧ t2.size_ = W3.size_ ∧
        InOrder t2.root =
          (if (0 : Int) < 1 then
              (InOrder W3.root).drop (W3.size_ - (1 : Int).toNat % W3.size_) ++
                (InOrder W3.root).take (W3.size_ - (1 : Int).toNat % W3.size_)
            else if (1 : Int) < 0 then
              (InOrder W3.root).drop ((-(1 : Int)).toNat % W3.size_) ++
                (InOrder W3.root).take ((-(1 : Int)).toNat % W3.size_)
            else InOrder W3.root) :=
  ⟨by decide, by decide, by decide,
   c5_rotate_signed W3 1 (by decide) (by decide) (by decide)⟩

/-- C3: for a valid range `0 ≤ start ≤ end ≤ Size()`, `Extract(start, end)`
returns a container holding exactly the slice `[start, end)` in preserved
order, leaves the receiver with the remaining elements in order, and the two
containers partition the original nodes (counts add up; node ownership
transfers, no sharing).  In particular `Extract(4,7)` on `[1..9]` yields
`[5,6,7]` and remainder `[1,2,3,4,8,9]` (see the witness). -/
theorem c3_extract_range (t : Treap) (s e : Nat) (hinv : Inv t) (hse : s ≤ e)
    (hes : e ≤ t.size_) :
    ∃ pr, Extract t s e = some pr ∧
      InOrder pr.2.root = List.take (e - s) (List.drop s (InOrder t.root)) ∧
      InOrder pr.1.root =
        List.take s (InOrder t.root) ++ List.drop e (InOrder t.root) ∧
      pr.2.size_ = e - s ∧ pr.1.size_ = t.size_ - (e - s) ∧
      count pr.1.root + count pr.2.root = count t.root := by
  have hlen := inv_length hinv
  simp only [Extract]
  rw [if_neg (by omega : ¬(e < s ∨ t.size_ < e))]
  by_cases h1 : s = 0 ∧ e = t.size_
  · rw [if_pos h1]
    obtain ⟨hs0, hes'⟩ := h1
    subst hs0
    refine ⟨_, rfl, ?_, ?_, ?_, ?_, ?_⟩
    · show InOrder t.root = _
      rw [Nat.sub_zero, List.drop_zero, List.take_of_length_le (by omega)]
    · show InOrder Node.nil = _
      rw [inorder_nil, List.take_zero, List.nil_append,
        List.drop_of_length_le (by omega)]
    · show t.size_ = e - 0
      omega
    · show (0 : Nat) = t.size_ - (e - 0)
      omega
    · show count Node.nil + count t.root = count t.root
      simp
  · rw [if_neg h1]
    by_cases h2 : s < e
    · rw [if_pos h2]
      have hsp1 := (split_take_drop (s + 1) t.root) hinv.1
      simp only [Nat.add_sub_cancel] at hsp1
      have hszb := ((sizeOk_split (s + 1) t.root) hinv.1).2
      have hsp2 := (split_take_drop (e - s + 1) (Split (s + 1) t.root).2) hszb
      simp only [Nat.add_sub_cancel] at hsp2
      refine ⟨_, rfl, ?_, ?_, rfl, rfl, ?_⟩
      · show InOrder (Split (e - s + 1) (Split (s + 1) t.root).2).1 = _
        rw [hsp2.1, hsp1.2]
      · show InOrder (Merge (Split (s + 1) t.root).1
            (Split (e - s + 1) (Split (s + 1) t.root).2).2) = _
        rw [inorder_merge, hsp1.1, hsp2.2, hsp1.2, List.drop_drop]
        have heq : s + (e - s) = e := by omega
        rw [heq]
      · show count (Merge (Split (s + 1) t.root).1
            (Split (e - s + 1) (Split (s + 1) t.root).2).2) +
            count (Split (e - s + 1) (Split (s + 1) t.root).2).1 = count t.root
        rw [count_merge]
        have q1 := count_split (s + 1) t.root
        have q2 := count_split (e - s + 1) (Split (s + 1) t.root).2
        omega
    · rw [if_neg h2]
      have he : s = e := by omega
      subst he
      refine ⟨_, rfl, ?_, ?_, ?_, ?_, ?_⟩
      · show InOrder Node.nil = _
        simp
      · show InOrder t.root = _
        rw [List.take_append_drop]
      · show (0 : Nat) = s - s
        omega
      · show t.size_ = t.size_ - (s - s)
        omega
      · show count t.root + count Node.nil = count t.root
        simp

theorem c3_witness :
    (Inv W9 ∧ 4 ≤ 7 ∧ 7 ≤ W9.size_) ∧
      (∃ pr, Extract W9 4 7 = some pr ∧
        InOrder pr.2.root = List.take (7 - 4) (List.drop 4 (InOrder W9.root)) ∧
        InOrder pr.1.root =
          List.take 4 (InOrder W9.root) ++ List.drop 7 (InOrder W9.root) ∧
        pr.2.size_ = 7 - 4 ∧ pr.1.size_ = W9.size_ - (7 - 4) ∧
        count pr.1.root + count pr.2.root = count W9.root) ∧
      List.take (7 - 4) (List.drop 4 (InOrder W9.root)) = [5, 6, 7] ∧
      List.take 4 (InOrder W9.root) ++ List.drop 7 (InOrder W9.root) =
        [1, 2, 3, 4, 8, 9] :=
  ⟨⟨by decide, by decide, by decide⟩,
   c3_extract_range W9 4 7 (by decide) (by decide) (by decide),
   by decide, by decide⟩

lemma lbound_nil : ∀ sp : List SpineEntry, LBound .nil sp := by
  intro sp
  cases sp with
  | nil => trivial
  | cons e rest => exact Nat.zero_le _

lemma inv_count {t : Treap} (h : Inv t) : count t.root = t.size_ := by
  rw [← getTreeSize_eq_count h.1]
  exact h.2.2.symm

lemma rebuild_sizeOk : ∀ (sp : List SpineEntry) (acc : Node), SizeOk acc →
    (∀ e ∈ sp, SizeOk e.left) → SizeOk (rebuild acc sp) := by
  intro sp
  induction sp with
  | nil => intro acc ha _; exact ha
  | cons e rest ih =>
    intro acc ha hall
    simp only [rebuild]
    exact ih _ (sizeOk_mkNodeFix (hall e (by simp)) ha e.prio e.val)
      (fun f hf => hall f (by simp [hf]))

lemma rebuild_heapOk : ∀ (sp : List SpineEntry) (acc : Node), GoodSpine sp →
    HeapOk acc → LBound acc sp → HeapOk (rebuild acc sp) := by
  intro sp
  induction sp with
  | nil => intro acc _ ha _; exact ha
  | cons e rest ih =>
    intro acc hg ha hlb
    obtain ⟨hall, hch⟩ := hg
    have hch' := List.chain'_cons'.mp hch
    obtain ⟨he1, he2, he3⟩ := hall e (by simp)
    simp only [rebuild]
    refine ih _ ⟨fun f hf => hall f (by simp [hf]), hch'.2⟩ ⟨he3, hlb, he2, ha⟩ ?_
    cases rest with
    | nil => trivial
    | cons f rest2 => exact hch'.1 f rfl

lemma rebuild_count : ∀ (sp : List SpineEntry) (acc : Node),
    count (rebuild acc sp) = count acc + spineCount sp := by
  intro sp
  induction sp with
  | nil => intro acc; simp [rebuild, spineCount]
  | cons e rest ih =>
    intro acc
    simp only [rebuild, spineCount]
    rw [ih]
    simp only [count_mkNodeFix]
    omega

lemma spinePush_good : ∀ (sp : List SpineEntry) (acc : Node) (p v : Nat),
    GoodSpine sp → SizeOk acc → HeapOk acc → rootPrio acc ≤ p →
    LBound acc sp →
    GoodSpine (spinePush p v sp acc) ∧
      spineCount (spinePush p v sp acc) = spineCount sp + count acc + 1 := by
  intro sp
  induction sp with
  | nil =>
    intro acc p v _ hs hh hr _
    constructor
    · constructor
      · intro f hf
        simp [spinePush] at hf
        subst hf
        exact ⟨hs, hh, hr⟩
      · simp [spinePush]
    · simp [spinePush, spineCount]
  | cons e rest ih =>
    intro acc p v hg hs hh hr hlb
    obtain ⟨hall, hch⟩ := hg
    have hch' := List.chain'_cons'.mp hch
    obtain ⟨he1, he2, he3⟩ := hall e (by simp)
    simp only [spinePush]
    by_cases hlt : e.prio < p
    · rw [if_pos hlt]
      have hstep := ih (mkNodeFix e.left acc e.prio e.val) p v
        ⟨fun f hf => hall f (by simp [hf]), hch'.2⟩
        (sizeOk_mkNodeFix he1 hs e.prio e.val)
        ⟨he3, hlb, he2, hh⟩ (le_of_lt hlt)
        (by
          cases rest with
          | nil => trivial
          | cons f rest2 => exact hch'.1 f rfl)
      refine ⟨hstep.1, ?_⟩
      rw [hstep.2]
      simp only [spineCount, count_mkNodeFix]
      omega
    · rw [if_neg hlt]
      constructor
      · constructor
        · intro f hf
          rcases List.mem_cons.mp hf with rfl | hf2
          · exact ⟨hs, hh, hr⟩
          · exact hall f hf2
        · exact List.chain'_cons'.mpr ⟨fun b hb => by
            cases hb; exact Nat.le_of_not_lt hlt, hch⟩
      · simp only [spineCount]
        omega

lemma buildLoop_good : ∀ (input : List Nat) (r : Rnd) (sp : List SpineEntry),
    GoodSpine sp → GoodSpine (buildLoop input r sp).1 ∧
      spineCount (buildLoop input r sp).1 = spineCount sp + input.length := by
  intro input
  induction input with
  | nil =>
    intro r sp hg
    exact ⟨hg, by simp [buildLoop]⟩
  | cons v rest ih =>
    intro r sp hg
    simp only [buildLoop]
    have hp := spinePush_good sp .nil (rndNext r).1 v hg sizeOk_nil heapOk_nil
      (Nat.zero_le _) (lbound_nil sp)
    have hrec := ih (rndNext r).2 _ hp.1
    refine ⟨hrec.1, ?_⟩
    rw [hrec.2, hp.2]
    simp only [count_nil, List.length_cons]
    omega

lemma fromVector_inv (input : List Nat) (seed : Nat) :
    Inv (fromVector input seed) := by
  cases input with
  | nil => exact ⟨trivial, trivial, rfl⟩
  | cons v rest =>
    simp only [fromVector]
    have hg0 : GoodSpine [⟨.nil, (rndNext ⟨seed, 0⟩).1, v⟩] := by
      constructor
      · intro e he
        simp at he
        subst he
        exact ⟨trivial, trivial, Nat.zero_le _⟩
      · simp
    have hb := buildLoop_good rest (rndNext ⟨seed, 0⟩).2 _ hg0
    refine ⟨?_, ?_, ?_⟩
    · exact rebuild_sizeOk _ _ sizeOk_nil (fun e he => (hb.1.1 e he).1)
    · exact rebuild_heapOk _ _ hb.1 heapOk_nil (lbound_nil _)
    · show (v :: rest).length = GetTreeSize _
      rw [getTreeSize_eq_count
        (rebuild_sizeOk _ _ sizeOk_nil (fun e he => (hb.1.1 e he).1)),
        rebuild_count, hb.2]
      simp [spineCount]
      omega

lemma inv_insert (t : Treap) (v pos : Nat) (h : Inv t) : Inv (Insert t v pos) := by
  obtain ⟨hsz, hhp, hsize⟩ := h
  have hs1 := (sizeOk_split (min (t.size_ + 1) pos + 1) t.root) hsz
  have hh1 := (heapOk_split (min (t.size_ + 1) pos + 1) t.root) hhp
  have hnode : SizeOk (Node.node .nil .nil 1 (rndNext t.rnd).1 v) :=
    ⟨rfl, trivial, trivial⟩
  have hnodeH : HeapOk (Node.node .nil .nil 1 (rndNext t.rnd).1 v) :=
    ⟨Nat.zero_le _, Nat.zero_le _, trivial, trivial⟩
  have hszM := sizeOk_merge (sizeOk_merge hs1.1 hnode) hs1.2
  simp only [Insert, Inv]
  refine ⟨hszM, heapOk_merge (heapOk_merge hh1.1 hnodeH) hh1.2.1, ?_⟩
  rw [getTreeSize_eq_count hszM, count_merge, count_merge]
  have hq := count_split (min (t.size_ + 1) pos + 1) t.root
  have hc : count t.root = t.size_ := by
    rw [← getTreeSize_eq_count hsz, hsize]
  simp only [count_node, count_nil]
  omega

lemma inv_erase (t : Treap) (pos : Nat) (t2 : Treap) (h : Inv t)
    (hp : pos < t.size_) (he : Erase t pos = some t2) : Inv t2 := by
  obtain ⟨hsz, hhp, hsize⟩ := h
  have hlen : (InOrder t.root).length = t.size_ := inv_length ⟨hsz, hhp, hsize⟩
  have hroot : ¬ t.root = .nil := by
    intro hn
    rw [← inorder_eq_nil, ← List.length_eq_zero] at hn
    omega
  simp only [Erase, if_neg hroot] at he
  injection he with he'
  subst he'
  have hf := (sizeOk_split (pos + 1) t.root) hsz
  have hhf := (heapOk_split (pos + 1) t.root) hhp
  have hs2 := (sizeOk_split 2 (Split (pos + 1) t.root).2) hf.2
  have hhs2 := (heapOk_split 2 (Split (pos + 1) t.root).2) hhf.2.1
  have e1 := (split_take_drop (pos + 1) t.root) hsz
  simp only [Nat.add_sub_cancel] at e1
  have e2 := (split_take_drop 2 (Split (pos + 1) t.root).2) hf.2
  have hszM := sizeOk_merge hf.1 hs2.2
  refine ⟨hszM, heapOk_merge hhf.1 hhs2.2.1, ?_⟩
  show t.size_ - 1 = _
  rw [getTreeSize_eq_count hszM, count_merge]
  have c1 : count (Split (pos + 1) t.root).1 = pos := by
    rw [← length_inorder, e1.1, List.length_take, hlen]
    omega
  have c2 : count (Split 2 (Split (pos + 1) t.root).2).2 =
      t.size_ - pos - 1 := by
    rw [← length_inorder, e2.2, List.length_drop, e1.2, List.length_drop, hlen]
  omega

lemma inv_extract (t : Treap) (s e : Nat) (pr : Treap × Treap) (h : Inv t)
    (hse : s ≤ e) (hes : e ≤ t.size_) (hx : Extract t s e = some pr) :
    Inv pr.1 ∧ Inv pr.2 := by
  obtain ⟨hsz, hhp, hsize⟩ := h
  have hlen : (InOrder t.root).length = t.size_ := inv_length ⟨hsz, hhp, hsize⟩
  simp only [Extract] at hx
  rw [if_neg (by omega : ¬(e < s ∨ t.size_ < e))] at hx
  by_cases h1 : s = 0 ∧ e = t.size_
  · rw [if_pos h1] at hx
    injection hx with hx'
    subst hx'
    exact ⟨⟨trivial, trivial, rfl⟩, ⟨hsz, hhp, hsize⟩⟩
  · rw [if_neg h1] at hx
    by_cases h2 : s < e
    · rw [if_pos h2] at hx
      injection hx with hx'
      subst hx'
      have hsp1 := (sizeOk_split (s + 1) t.root) hsz
      have hhp1 := (heapOk_split (s + 1) t.root) hhp
      have hsp2 := (sizeOk_split (e - s + 1) (Split (s + 1) t.root).2) hsp1.2
      have hhp2 := (heapOk_split (e - s + 1) (Split (s + 1) t.root).2) hhp1.2.1
      have e1 := (split_take_drop (s + 1) t.root) hsz
      simp only [Nat.add_sub_cancel] at e1
      have e2 := (split_take_drop (e - s + 1) (Split (s + 1) t.root).2) hsp1.2
      simp only [Nat.add_sub_cancel] at e2
      have cB : (InOrder (Split (s + 1) t.root).2).length = t.size_ - s := by
        rw [e1.2, List.length_drop, hlen]
      have cA : count (Split (s + 1) t.root).1 = s := by
        rw [← length_inorder, e1.1, List.length_take, hlen]
        omega
      have cC : count (Split (e - s + 1) (Split (s + 1) t.root).2).1 = e - s := by
        rw [← length_inorder, e2.1, List.length_take, cB]
        omega
      have cD : count (Split (e - s + 1) (Split (s + 1) t.root).2).2 =
          t.size_ - e := by
        rw [← length_inorder, e2.2, List.length_drop, cB]
        omega
      have hszM := sizeOk_merge hsp1.1 hsp2.2
      constructor
      · refine ⟨hszM, heapOk_merge hhp1.1 hhp2.2.1, ?_⟩
        show t.size_ - (e - s) = _
        rw [getTreeSize_eq_count hszM, count_merge]
        omega
      · refine ⟨hsp2.1, hhp2.1, ?_⟩
        show e - s = _
        rw [getTreeSize_eq_count hsp2.1]
        omega
    · rw [if_neg h2] at hx
      injection hx with hx'
      subst hx'
      exact ⟨⟨hsz, hhp, hsize⟩, ⟨trivial, trivial, rfl⟩⟩

lemma inv_concat (t other : Treap) (h1 : Inv t) (h2 : Inv other) :
    Inv (Concatenate t other).1 ∧ Inv (Concatenate t other).2 := by
  obtain ⟨a1, a2, a3⟩ := h1
  obtain ⟨b1, b2, b3⟩ := h2
  have hszM := sizeOk_merge a1 b1
  simp only [Concatenate, Inv]
  refine ⟨⟨hszM, heapOk_merge a2 b2, ?_⟩, sizeOk_nil, heapOk_nil, rfl⟩
  rw [getTreeSize_eq_count hszM, count_merge, ← getTreeSize_eq_count a1,
    ← getTreeSize_eq_count b1, ← a3, ← b3]

lemma inv_rotate (t : Treap) (cnt : Int) (t2 : Treap) (h : Inv t)
    (hr : Rotate t cnt = some t2) : Inv t2 := by
  obtain ⟨hsz, hhp, hsize⟩ := h
  have hc : count t.root = t.size_ := by
    rw [← getTreeSize_eq_count hsz, hsize]
  by_cases h0 : cnt = 0
  · rw [h0] at hr
    simp only [Rotate, if_pos rfl] at hr
    injection hr with hr'
    subst hr'
    exact ⟨hsz, hhp, hsize⟩
  · by_cases hp : 0 < cnt
    · simp only [Rotate, if_neg h0, if_pos hp] at hr
      by_cases hz : t.size_ = 0
      · rw [if_pos hz] at hr
        exact absurd hr (by simp)
      · rw [if_neg hz] at hr
        by_cases hcc : cnt.toNat % t.size_ = 0
        · rw [if_pos hcc] at hr
          injection hr with hr'
          subst hr'
          exact ⟨hsz, hhp, hsize⟩
        · rw [if_neg hcc] at hr
          injection hr with hr'
          subst hr'
          have hs := (sizeOk_split (t.size_ - cnt.toNat % t.size_ + 1) t.root) hsz
          have hh := (heapOk_split (t.size_ - cnt.toNat % t.size_ + 1) t.root) hhp
          have hszM := sizeOk_merge hs.2 hs.1
          refine ⟨hszM, heapOk_merge hh.2.1 hh.1, ?_⟩
          show t.size_ = _
          rw [getTreeSize_eq_count hszM, count_merge]
          have hq := count_split (t.size_ - cnt.toNat % t.size_ + 1) t.root
          omega
    · simp only [Rotate, if_neg h0, if_neg hp] at hr
      by_cases hm : cnt = -(2 ^ 31)
      · rw [if_pos hm] at hr
        exact absurd hr (by simp)
      rw [if_neg hm] at hr
      by_cases hz : t.size_ = 0
      · rw [if_pos hz] at hr
        exact absurd hr (by simp)
      · rw [if_neg hz] at hr
        by_cases hcc : (-cnt).toNat % t.size_ = 0
        · rw [if_pos hcc] at hr
          injection hr with hr'
          subst hr'
          exact ⟨hsz, hhp, hsize⟩
        · rw [if_neg hcc] at hr
          injection hr with hr'
          subst hr'
          have hs := (sizeOk_split ((-cnt).toNat % t.size_ + 1) t.root) hsz
          have hh := (heapOk_split ((-cnt).toNat % t.size_ + 1) t.root) hhp
          have hszM := sizeOk_merge hs.2 hs.1
          refine ⟨hszM, heapOk_merge hh.2.1 hh.1, ?_⟩
          show t.size_ = _
          rw [getTreeSize_eq_count hszM, count_merge]
          have hq := count_split ((-cnt).toNat % t.size_ + 1) t.root
          omega

/-- C1 counterexample: move-construction is a public operation, and the
moved-from container it leaves behind violates the size invariant — its
`size_` keeps the former element count while its root is null. -/
theorem c1_counterexample : ¬ Inv (moveConstruct W1).2 := by decide

/-- C1 (amended): after every public operation, with its precondition met,
the structural invariants (exact cached `tree_size` for every reachable node,
max-heap on priorities, and `size_` equal to the root's subtree size or 0
for a null root) hold for every resulting container — except the source of a
move-construction/move-assignment, which keeps its former `size_` with a
null root (a state the header itself documents as "not valid"). -/
theorem c1_invariants :
    (∀ (t : Treap) (v pos : Nat), Inv t → Inv (Insert t v pos)) ∧
    (∀ (t : Treap) (pos : Nat) (t2 : Treap), Inv t → pos < t.size_ →
      Erase t pos = some t2 → Inv t2) ∧
    (∀ (t : Treap) (s e : Nat) (pr : Treap × Treap), Inv t → s ≤ e →
      e ≤ t.size_ → Extract t s e = some pr → Inv pr.1 ∧ Inv pr.2) ∧
    (∀ t other : Treap, Inv t → Inv other →
      Inv (Concatenate t other).1 ∧ Inv (Concatenate t other).2) ∧
    (∀ (t : Treap) (cnt : Int) (t2 : Treap), Inv t → Rotate t cnt = some t2 →
      Inv t2) ∧
    (∀ (input : List Nat) (seed : Nat), Inv (fromVector input seed)) ∧
    (∀ t : Treap, Inv t → Inv (moveConstruct t).1) ∧
    (∀ self other : Treap, Inv other → Inv (moveAssign self other).1) ∧
    (∀ t other : Treap, Inv t → Inv other →
      Inv (SwapOp t other).1 ∧ Inv (SwapOp t other).2) ∧
    (∀ (t : Treap) (seed : Nat), Inv t → Inv (SetSeed t seed)) := by
  refine ⟨inv_insert, inv_erase, inv_extract, inv_concat, inv_rotate,
    fromVector_inv, ?_, ?_, ?_, ?_⟩
  · intro t h
    exact h
  · intro self other h
    exact h
  · intro t other h1 h2
    exact ⟨h2, h1⟩
  · intro t seed h
    exact ⟨h.1, h.2.1, h.2.2⟩

theorem c1_witness : Inv W3 ∧ Inv (Insert W3 7 1) :=
  ⟨by decide, c1_invariants.1 W3 7 1 (by decide)⟩

/-- C10: shifting a non-end iterator that points at position `p` of a
container of size `n` by any `int` shift `k` with `p + k` outside
`[0, n-1]` returns an iterator with a null node reference — equal to
`End()` — via `ShiftNode`'s range check on the `size_t` sum of rank and
shift (taken mod 2^64); no assertion fires on this path.  The bound
`n + 2^31 < 2^64` reflects that the shift is a 32-bit `int` while the
container size is a node count. -/
theorem c10_shift_out_of_bounds (t : Treap) (path : List Bool) (p n : Nat)
    (k : Int) (hvalid : isValidPath t.root path = true)
    (hrank : GetElementNumber t.root path = p + 1)
    (hp : p < n) (hn : GetTreeSize t.root = n)
    (hnb : (n : Int) + 2 ^ 31 < 2 ^ 64)
    (hklo : -(2 ^ 31) ≤ k) (hkhi : k < 2 ^ 31)
    (hout : (p : Int) + k < 0 ∨ (n : Int) ≤ (p : Int) + k) :
    iterPlus t (some path) k = none := by
  simp only [iterPlus, ShiftNode, hrank, hn]
  have hc : ((((p + 1 : Nat) : Int) + k) % (2 ^ 64 : Int)).toNat < 1 ∨
      ((((p + 1 : Nat) : Int) + k) % (2 ^ 64 : Int)).toNat > n := by
    rcases hout with h | h
    · omega
    · omega
  rw [if_pos hc]

theorem c10_witness :
    (isValidPath W2.root [] = true ∧ GetElementNumber W2.root [] = 0 + 1 ∧
      0 < 2 ∧ GetTreeSize W2.root = 2 ∧
      ((2 : Nat) : Int) + 2 ^ 31 < 2 ^ 64 ∧ -(2 ^ 31) ≤ (5 : Int) ∧
      (5 : Int) < 2 ^ 31 ∧ ((2 : Nat) : Int) ≤ ((0 : Nat) : Int) + 5) ∧
    iterPlus W2 (some []) 5 = none :=
  ⟨⟨by decide, by decide, by decide, by decide, by decide, by decide,
    by decide, by decide⟩,
   c10_shift_out_of_bounds W2 [] 0 2 5 (by decide) (by decide) (by decide)
     (by decide) (by decide) (by decide) (by decide) (Or.inr (by decide))⟩

/-- C4: the sub-range rotation `Rotate(begin, new_begin, end)` (modelled
from the spec, see `RotateRange`): for `begin ≤ new_begin < end ≤ Size()`,
the sub-range `[begin, end)` is cyclically rotated so that it starts with
the elements from `new_begin` onward followed by the former prefix of the
range, while the elements outside `[begin, end)` and the container size are
unchanged.  In particular the element originally at `new_begin` becomes the
first element of the sub-range. -/
theorem c4_rotate_subrange (t : Treap) (b nb e : Nat) (hinv : Inv t)
    (hb : b ≤ nb) (hnbe : nb < e) (hes : e ≤ t.size_) :
    (RotateRange t b nb e).size_ = t.size_ ∧
    InOrder (RotateRange t b nb e).root =
      List.take b (InOrder t.root) ++
        List.take (e - nb) (List.drop nb (InOrder t.root)) ++
        List.take (nb - b) (List.drop b (InOrder t.root)) ++
        List.drop e (InOrder t.root) := by
  obtain ⟨hsz, hhp, hsize⟩ := hinv
  have hlen : (InOrder t.root).length = t.size_ := inv_length ⟨hsz, hhp, hsize⟩
  refine ⟨rfl, ?_⟩
  have h1 := (split_take_drop (b + 1) t.root) hsz
  simp only [Nat.add_sub_cancel] at h1
  have hsz2 := ((sizeOk_split (b + 1) t.root) hsz).2
  have h2 := (split_take_drop (e - b + 1) (Split (b + 1) t.root).2) hsz2
  simp only [Nat.add_sub_cancel] at h2
  have hsz3 := ((sizeOk_split (e - b + 1) (Split (b + 1) t.root).2) hsz2).1
  have h3 := (split_take_drop (nb - b + 1)
    (Split (e - b + 1) (Split (b + 1) t.root).2).1) hsz3
  simp only [Nat.add_sub_cancel] at h3
  simp only [RotateRange]
  rw [inorder_merge, inorder_merge, inorder_merge, h3.1, h3.2, h2.1, h2.2,
    h1.1, h1.2, List.drop_take, List.take_take, List.drop_drop, List.drop_drop]
  have i1 : e - b - (nb - b) = e - nb := by omega
  have i2 : min (nb - b) (e - b) = nb - b := by omega
  have i3 : b + (nb - b) = nb := by omega
  have i4 : b + (e - b) = e := by omega
  rw [i1, i2, i3, i4]
  simp [List.append_assoc]

theorem c4_witness :
    (Inv W3 ∧ 0 ≤ 2 ∧ 2 < 3 ∧ 3 ≤ W3.size_) ∧
    ((RotateRange W3 0 2 3).size_ = W3.size_ ∧
      InOrder (RotateRange W3 0 2 3).root =
        List.take 0 (InOrder W3.root) ++
          List.take (3 - 2) (List.drop 2 (InOrder W3.root)) ++
          List.take (2 - 0) (List.drop 0 (InOrder W3.root)) ++
          List.drop 3 (InOrder W3.root)) ∧
    List.take 0 (InOrder W3.root) ++
        List.take (3 - 2) (List.drop 2 (InOrder W3.root)) ++
        List.take (2 - 0) (List.drop 0 (InOrder W3.root)) ++
        List.drop 3 (InOrder W3.root) = [30, 10, 20] :=
  ⟨⟨by decide, by decide, by decide, by decide⟩,
   c4_rotate_subrange W3 0 2 3 (by decide) (by decide) (by decide) (by decide),
   by decide⟩
